import Mathlib

/-
Verification of the panel-tree layout engine of the MeKu Storybook Builder.

The engine is a recursive tree of split containers and content leaves,
together with pure operations for locating, updating and resizing nodes.
Fractional sizes are modelled by exact rationals (ℚ); the source's
string identifiers produced by a random generator are modelled as an
opaque fresh-token supply over ℕ (distinct draws yield distinct tokens,
matching the spec's uniqueness assumption on `uid`).
-/

namespace Storybook

/-- The axis of a split container (`type Direction = "horizontal" | "vertical"`). -/
inductive Direction where
  | horizontal
  | vertical
deriving DecidableEq, Repr

/-- The active content kind of a leaf (`type ContentType = "text" | "image"`). -/
inductive ContentType where
  | text
  | image
deriving DecidableEq, Repr

/-- Text alignment options of a leaf's text payload. -/
inductive Align where
  | left
  | center
  | right
  | justify
deriving DecidableEq, Repr

/-- How an image is fitted into its panel. -/
inductive ObjectFit where
  | cover
  | contain
  | fill
deriving DecidableEq, Repr

/-- The `textProps` record of a leaf: every field optional, as in the source. -/
structure TextProps where
  text : Option String
  align : Option Align
  fontSize : Option ℚ
  lineHeight : Option ℚ
  padding : Option ℚ
  bg : Option String
  italic : Option Bool
  bold : Option Bool
  radius : Option ℚ
  fontFamily : Option String
  letterSpacing : Option ℚ
  wordSpacing : Option ℚ
deriving DecidableEq, Repr

/-- The `imageProps` record of a leaf: every field optional, as in the source. -/
structure ImageProps where
  url : Option String
  objectFit : Option ObjectFit
  scale : Option ℚ
  offsetX : Option ℚ
  offsetY : Option ℚ
  radius : Option ℚ
  padding : Option ℚ
  bg : Option String
  opacity : Option ℚ
  filter : Option String
deriving DecidableEq, Repr

/-- A panel-tree node: either a content leaf or a split container with
fractional `sizes` (one per child).  Mirrors `type Node = SplitNode | LeafNode`. -/
inductive Node where
  | leaf (nid : ℕ) (contentType : ContentType) (textProps : TextProps) (imageProps : ImageProps)
  | split (nid : ℕ) (direction : Direction) (sizes : List ℚ) (children : List Node)
deriving Repr

/-- The identifier of a node (`node.id`). -/
def Node.nodeId : Node → ℕ
  | .leaf i _ _ _ => i
  | .split i _ _ _ => i

/-- The `sizes` array of a node: a split's sizes, or `[]` for a leaf. -/
def Node.sizesOf : Node → List ℚ
  | .leaf _ _ _ _ => []
  | .split _ _ s _ => s

/-- `uid`: the source draws a random token; modelled as a fresh-token
supply returning the current counter and the advanced supply. -/
def uid (k : ℕ) : ℕ × ℕ := (k, k + 1)

/-- `appendGeneratedLine`: adds a blank line between previous text and the
new line if previous text exists (`prev ? prev + "\n\n" + line : line`). -/
def appendGeneratedLine (existingText : Option String) (newLine : String) : String :=
  let prev := match existingText with
    | none => ""
    | some s => s
  if prev = "" then newLine else prev ++ "\n\n" ++ newLine

/-- The default `textProps` of `DEFAULT_LEAF`. -/
def defaultTextProps : TextProps :=
  { text := some "Click to edit this segment..."
    align := some Align.left
    fontSize := some 16
    lineHeight := some (3/2)
    padding := some 16
    bg := some "transparent"
    italic := some false
    bold := some false
    radius := some 8
    fontFamily := some "Inter"
    letterSpacing := some 0
    wordSpacing := some 0 }

/-- The default `imageProps` of `DEFAULT_LEAF`. -/
def defaultImageProps : ImageProps :=
  { url := some ""
    objectFit := some ObjectFit.cover
    scale := some 1
    offsetX := some 0
    offsetY := some 0
    radius := some 8
    padding := some 0
    bg := some "transparent"
    opacity := some 1
    filter := some "none" }

/-- `DEFAULT_LEAF()`: a fresh blank text leaf, threading the id supply. -/
def DEFAULT_LEAF (k : ℕ) : Node × ℕ :=
  let (i, k') := uid k
  (Node.leaf i ContentType.text defaultTextProps defaultImageProps, k')

/-- `clamp` as written in `applyResize`: `Math.max(lo, Math.min(x, hi))`. -/
def clamp (x lo hi : ℚ) : ℚ := max lo (min x hi)

/-- `applyResize(n, index, delta)`: on a split, moves the boundary between
slots `index` and `index+1`, clamping slot `index` to
`[0.08, total - 0.08]` where `total` is the pair's combined size; on a
leaf, returns the node unchanged. -/
def applyResize (n : Node) (index : ℕ) (delta : ℚ) : Node :=
  match n with
  | Node.leaf i ct t im => Node.leaf i ct t im
  | Node.split i d sizes cs =>
      let mn : ℚ := 8/100
      let total := sizes.getD index 0 + sizes.getD (index + 1) 0
      let a := sizes.getD index 0 + delta
      let a := max mn (min a (total - mn))
      Node.split i d ((sizes.set index a).set (index + 1) (total - a)) cs

/-- The `SplitInspector` per-child size slider update: clamps the chosen
value to `[0.05, 0.95]`, rescales the remaining siblings by
`rest / (1 - sizes[i])` where `rest = max(0.05, 1 - val)`, and clamps each
rescaled sibling up to `0.05`. -/
def splitInspectorSetSize (sizes : List ℚ) (i : ℕ) (value : ℚ) : List ℚ :=
  let val := min (95/100) (max (5/100) value)
  let rest := max (5/100) (1 - val)
  let factor := rest / (1 - sizes.getD i 0)
  sizes.mapIdx (fun idx v => if idx = i then val else max (5/100) (v * factor))

/-- The `EnhancedLeafInspector` content-type updater
`n => ({...n, contentType: value})`: replaces only the `contentType`
field of a leaf. -/
def setContentTypeUpdater (v : ContentType) : Node → Node
  | Node.leaf i _ t im => Node.leaf i v t im
  | Node.split i d s cs => Node.split i d s cs

mutual
/-- `findNode(node, id)`: the node itself when its id matches, otherwise
the first matching descendant over the children left to right, or `none`. -/
def findNode : Node → ℕ → Option Node
  | Node.leaf i ct t im, tid =>
      if i = tid then some (Node.leaf i ct t im) else none
  | Node.split i d s cs, tid =>
      if i = tid then some (Node.split i d s cs) else findNodeList cs tid
termination_by n _ => sizeOf n

/-- `children.map(c => findNode(c, id)).find(Boolean) || null`: the first
`some` result over the children, left to right. -/
def findNodeList : List Node → ℕ → Option Node
  | [], _ => none
  | c :: cs, tid =>
      match findNode c tid with
      | some m => some m
      | none => findNodeList cs tid
termination_by cs _ => sizeOf cs
end

mutual
/-- `updateNode(node, id, updater)`: applies `updater` at the node whose
id matches, rebuilding the spine above it; leaves everything else as is. -/
def updateNode : Node → ℕ → (Node → Node) → Node
  | Node.leaf i ct t im, tid, f =>
      if i = tid then f (Node.leaf i ct t im) else Node.leaf i ct t im
  | Node.split i d s cs, tid, f =>
      if i = tid then f (Node.split i d s cs)
      else Node.split i d s (updateNodeList cs tid f)
termination_by n _ _ => sizeOf n

/-- `children.map(c => updateNode(c, id, updater))`. -/
def updateNodeList : List Node → ℕ → (Node → Node) → List Node
  | [], _, _ => []
  | c :: cs, tid, f => updateNode c tid f :: updateNodeList cs tid f
termination_by cs _ _ => sizeOf cs
end

mutual
/-- Depth-first, root-first, children-left-to-right enumeration of the
nodes of a tree. -/
def preorder : Node → List Node
  | Node.leaf i ct t im => [Node.leaf i ct t im]
  | Node.split i d s cs => Node.split i d s cs :: preorderList cs
termination_by n => sizeOf n

/-- Preorder enumeration over a forest, left to right. -/
def preorderList : List Node → List Node
  | [] => []
  | c :: cs => preorder c ++ preorderList cs
termination_by cs => sizeOf cs
end

/-- The identifiers of all nodes of a tree, in depth-first order. -/
def nodeIds (n : Node) : List ℕ := (preorder n).map Node.nodeId

mutual
/-- The number of nodes of a tree whose identifier equals `tid`. -/
def countId : Node → ℕ → ℕ
  | Node.leaf i _ _ _, tid => if i = tid then 1 else 0
  | Node.split i _ _ cs, tid =>
      (if i = tid then 1 else 0) + countIdList cs tid
termination_by n _ => sizeOf n

/-- Total count of nodes with identifier `tid` over a forest. -/
def countIdList : List Node → ℕ → ℕ
  | [], _ => 0
  | c :: cs, tid => countId c tid + countIdList cs tid
termination_by cs _ => sizeOf cs
end

/-- The subtree reached from `n` by following a list of child positions. -/
def subtreeAt : Node → List ℕ → Option Node
  | n, [] => some n
  | Node.leaf _ _ _ _, _ :: _ => none
  | Node.split _ _ _ cs, j :: p =>
      match cs.get? j with
      | some c => subtreeAt c p
      | none => none
termination_by _ p => p.length

/-- Replaces the subtree at a child-position path by `m`; identity when
the path does not exist. -/
def setSubtreeAt : Node → List ℕ → Node → Node
  | _, [], m => m
  | Node.leaf i ct t im, _ :: _, _ => Node.leaf i ct t im
  | Node.split i d s cs, j :: p, m =>
      match cs.get? j with
      | some c => Node.split i d s (cs.set j (setSubtreeAt c p m))
      | none => Node.split i d s cs
termination_by _ p _ => p.length

/-- The single-node part of the structural invariant: a split's sizes sum
to 1, are positive, match the child count, and there is at least one child. -/
def splitOk : Node → Bool
  | Node.leaf _ _ _ _ => true
  | Node.split _ _ s cs =>
      (s.sum == 1) && s.all (fun x => decide (0 < x)) &&
        (s.length == cs.length) && (decide (1 ≤ cs.length))

/-- The structural sizes invariant, at every node of the tree. -/
def treeOk (n : Node) : Prop := ∀ m ∈ preorder n, splitOk m = true

mutual
/-- Modelled from the spec: `removeNode(root, id)` is implemented outside
the provided sources (only its callers appear there); per the spec it
deletes the child with the given id from its parent's children and sizes,
renormalizes the remaining sizes to sum to 1, and is a no-op when the id
is the root or the parent would be left with zero children. -/
def removeNode : Node → ℕ → Node
  | Node.leaf i ct t im, _ => Node.leaf i ct t im
  | Node.split i d s cs, tid =>
      match cs.findIdx? (fun c => c.nodeId == tid) with
      | some j =>
          if cs.length ≤ 1 then Node.split i d s cs
          else
            let s' := s.take j ++ s.drop (j + 1)
            Node.split i d (s'.map (fun v => v / s'.sum)) (cs.take j ++ cs.drop (j + 1))
      | none => Node.split i d s (removeNodeList cs tid)
termination_by n _ => sizeOf n

/-- Removal mapped over a forest (id not found among the direct children). -/
def removeNodeList : List Node → ℕ → List Node
  | [], _ => []
  | c :: cs, tid => removeNode c tid :: removeNodeList cs tid
termination_by cs _ => sizeOf cs
end

mutual
/-- Modelled from the spec: the deep copy used by `duplicateNodeInParent`
(implemented outside the provided sources) gives every node of the clone a
freshly generated identifier while preserving all content; the fresh-id
supply is threaded explicitly. -/
def cloneFresh : Node → ℕ → Node × ℕ
  | Node.leaf _ ct t im, k => (Node.leaf k ct t im, k + 1)
  | Node.split _ d s cs, k =>
      let r := cloneFreshList cs (k + 1)
      (Node.split k d s r.1, r.2)
termination_by n _ => sizeOf n

/-- Deep copy with fresh identifiers over a forest, threading the supply. -/
def cloneFreshList : List Node → ℕ → List Node × ℕ
  | [], k => ([], k)
  | c :: cs, k =>
      let rc := cloneFresh c k
      let rcs := cloneFreshList cs rc.2
      (rc.1 :: rcs.1, rcs.2)
termination_by cs _ => sizeOf cs
end

mutual
/-- Modelled from the spec: `duplicateNodeInParent(root, id)` is implemented
outside the provided sources; per the spec it clones the subtree with the
given id (fresh identifiers throughout, all content preserved), inserts
the clone immediately after the original in the parent's children, and
splits the original's size slot evenly between original and clone. -/
def duplicateNodeInParent : Node → ℕ → ℕ → Node × ℕ
  | Node.leaf i ct t im, _, k => (Node.leaf i ct t im, k)
  | Node.split i d s cs, tid, k =>
      match cs.findIdx? (fun c => c.nodeId == tid) with
      | some j =>
          match cs.get? j, s.get? j with
          | some c, some sz =>
              let r := cloneFresh c k
              (Node.split i d (s.take j ++ sz / 2 :: sz / 2 :: s.drop (j + 1))
                 (cs.take j ++ c :: r.1 :: cs.drop (j + 1)), r.2)
          | _, _ => (Node.split i d s cs, k)
      | none =>
          let r := duplicateList cs tid k
          (Node.split i d s r.1, r.2)
termination_by n _ _ => sizeOf n

/-- Duplication mapped over a forest (id not found among direct children),
threading the fresh-id supply. -/
def duplicateList : List Node → ℕ → ℕ → List Node × ℕ
  | [], _, k => ([], k)
  | c :: cs, tid, k =>
      let rc := duplicateNodeInParent c tid k
      let rcs := duplicateList cs tid rc.2
      (rc.1 :: rcs.1, rcs.2)
termination_by cs _ _ => sizeOf cs
end

/-- `layoutTwoColumns`: two equal columns. -/
def layoutTwoColumns (k : ℕ) : Node × ℕ :=
  let (i0, k) := uid k
  let (a, k) := DEFAULT_LEAF k
  let (b, k) := DEFAULT_LEAF k
  (Node.split i0 Direction.horizontal [1/2, 1/2] [a, b], k)

/-- `layoutThreeColumns`: three near-equal columns. -/
def layoutThreeColumns (k : ℕ) : Node × ℕ :=
  let (i0, k) := uid k
  let (a, k) := DEFAULT_LEAF k
  let (b, k) := DEFAULT_LEAF k
  let (c, k) := DEFAULT_LEAF k
  (Node.split i0 Direction.horizontal [33/100, 33/100, 34/100] [a, b, c], k)

/-- `layoutTwoByTwo`: a 2×2 grid of panels. -/
def layoutTwoByTwo (k : ℕ) : Node × ℕ :=
  let (i0, k) := uid k
  let (i1, k) := uid k
  let (a, k) := DEFAULT_LEAF k
  let (b, k) := DEFAULT_LEAF k
  let (i2, k) := uid k
  let (c, k) := DEFAULT_LEAF k
  let (d, k) := DEFAULT_LEAF k
  (Node.split i0 Direction.vertical [1/2, 1/2]
    [Node.split i1 Direction.horizontal [1/2, 1/2] [a, b],
     Node.split i2 Direction.horizontal [1/2, 1/2] [c, d]], k)

/-- `layoutMagazine`: a wide panel beside a 60/40 vertical pair. -/
def layoutMagazine (k : ℕ) : Node × ℕ :=
  let (i0, k) := uid k
  let (a, k) := DEFAULT_LEAF k
  let (i1, k) := uid k
  let (b, k) := DEFAULT_LEAF k
  let (c, k) := DEFAULT_LEAF k
  (Node.split i0 Direction.horizontal [62/100, 38/100]
    [a, Node.split i1 Direction.vertical [6/10, 4/10] [b, c]], k)

/-- `layoutHeaderColumns`: a header row over two equal columns. -/
def layoutHeaderColumns (k : ℕ) : Node × ℕ :=
  let (i0, k) := uid k
  let (a, k) := DEFAULT_LEAF k
  let (i1, k) := uid k
  let (b, k) := DEFAULT_LEAF k
  let (c, k) := DEFAULT_LEAF k
  (Node.split i0 Direction.vertical [25/100, 75/100]
    [a, Node.split i1 Direction.horizontal [1/2, 1/2] [b, c]], k)

/-- `layoutFullBleed`: a single full-page panel wrapped in a one-child split. -/
def layoutFullBleed (k : ℕ) : Node × ℕ :=
  let (i0, k) := uid k
  let (a, k) := DEFAULT_LEAF k
  (Node.split i0 Direction.horizontal [1] [a], k)

/-- `layoutComic6Panel`: three rows of two equal panels. -/
def layoutComic6Panel (k : ℕ) : Node × ℕ :=
  let (i0, k) := uid k
  let (i1, k) := uid k
  let (a, k) := DEFAULT_LEAF k
  let (b, k) := DEFAULT_LEAF k
  let (i2, k) := uid k
  let (c, k) := DEFAULT_LEAF k
  let (d, k) := DEFAULT_LEAF k
  let (i3, k) := uid k
  let (e, k) := DEFAULT_LEAF k
  let (f, k) := DEFAULT_LEAF k
  (Node.split i0 Direction.vertical [33/100, 33/100, 34/100]
    [Node.split i1 Direction.horizontal [1/2, 1/2] [a, b],
     Node.split i2 Direction.horizontal [1/2, 1/2] [c, d],
     Node.split i3 Direction.horizontal [1/2, 1/2] [e, f]], k)

/-- `layoutComicSplash`: a splash panel over a strip of three. -/
def layoutComicSplash (k : ℕ) : Node × ℕ :=
  let (i0, k) := uid k
  let (a, k) := DEFAULT_LEAF k
  let (i1, k) := uid k
  let (b, k) := DEFAULT_LEAF k
  let (c, k) := DEFAULT_LEAF k
  let (d, k) := DEFAULT_LEAF k
  (Node.split i0 Direction.vertical [8/10, 2/10]
    [a, Node.split i1 Direction.horizontal [33/100, 33/100, 34/100] [b, c, d]], k)

/-- `layoutPyramid`: a header over a 25/50/25 strip. -/
def layoutPyramid (k : ℕ) : Node × ℕ :=
  let (i0, k) := uid k
  let (a, k) := DEFAULT_LEAF k
  let (i1, k) := uid k
  let (b, k) := DEFAULT_LEAF k
  let (c, k) := DEFAULT_LEAF k
  let (d, k) := DEFAULT_LEAF k
  (Node.split i0 Direction.vertical [3/10, 7/10]
    [a, Node.split i1 Direction.horizontal [25/100, 1/2, 25/100] [b, c, d]], k)

/-- The `PRESETS` catalog: named layout builders. -/
def PRESETS : List (String × (ℕ → Node × ℕ)) :=
  [("Two Col", layoutTwoColumns),
   ("Three Col", layoutThreeColumns),
   ("2×2", layoutTwoByTwo),
   ("Magazine", layoutMagazine),
   ("Header+Cols", layoutHeaderColumns),
   ("Full", layoutFullBleed),
   ("6-Panel", layoutComic6Panel),
   ("Splash", layoutComicSplash),
   ("Pyramid", layoutPyramid)]

/-- A concrete text panel used by closed witness instances. -/
def sampleLeafA : Node := Node.leaf 1 ContentType.text defaultTextProps defaultImageProps

/-- A concrete image panel used by closed witness instances. -/
def sampleLeafB : Node := Node.leaf 2 ContentType.image defaultTextProps defaultImageProps

/-- A concrete two-panel page used by closed witness instances. -/
def samplePage : Node :=
  Node.split 0 Direction.horizontal [1/2, 1/2] [sampleLeafA, sampleLeafB]

/-- Setting an in-range position changes the list's sum by replacing that
entry. -/
theorem sum_set_getD (s : List ℚ) (n : ℕ) (a : ℚ) (h : n < s.length) :
    (s.set n a).sum = s.sum - s.getD n 0 + a := by
  induction s generalizing n with
  | nil => simp at h
  | cons x xs ih =>
      cases n with
      | zero => simp [List.set]; ring
      | succ m =>
          have hm : m < xs.length := by simpa using h
          simp only [List.set, List.sum_cons, List.getD_cons_succ, ih m hm]
          ring

/-- Reading back the position just set. -/
theorem getD_set_self (l : List ℚ) (n : ℕ) (a : ℚ) (h : n < l.length) :
    (l.set n a).getD n 0 = a := by
  simp [List.getD_eq_getElem?_getD, List.getElem?_set_self h]

/-- Setting one position leaves the others unchanged. -/
theorem getD_set_ne (l : List ℚ) (m n : ℕ) (a : ℚ) (h : m ≠ n) :
    (l.set m a).getD n 0 = l.getD n 0 := by
  simp [List.getD_eq_getElem?_getD, List.getElem?_set_ne h]

/-- C9: `applyResize` on a node that is not a SplitNode (a LeafNode)
returns that node itself, completely unchanged, for all index and delta
values. -/
theorem applyResize_leaf_noop (i : ℕ) (ct : ContentType) (t : TextProps)
    (im : ImageProps) (index : ℕ) (delta : ℚ) :
    applyResize (Node.leaf i ct t im) index delta = Node.leaf i ct t im := rfl

/-- C10: `appendGeneratedLine` returns the new line alone when the existing
text is absent or empty, and otherwise the existing text followed by
exactly one blank line (the two-character sequence of two newlines)
followed by the new line. -/
theorem appendGeneratedLine_spec (existingText : Option String) (newLine : String) :
    ((existingText = none ∨ existingText = some "") →
        appendGeneratedLine existingText newLine = newLine) ∧
    (∀ s, existingText = some s → s ≠ "" →
        appendGeneratedLine existingText newLine = s ++ "\n\n" ++ newLine) := by
  constructor
  · rintro (rfl | rfl) <;> simp [appendGeneratedLine]
  · rintro s rfl hs
    simp [appendGeneratedLine, hs]

/-- Closed instances of the two cases of `appendGeneratedLine_spec`. -/
theorem appendGeneratedLine_spec_witness :
    appendGeneratedLine none "line" = "line" ∧
    appendGeneratedLine (some "prev") "line" = "prev" ++ "\n\n" ++ "line" :=
  ⟨(appendGeneratedLine_spec none "line").1 (Or.inl rfl),
   (appendGeneratedLine_spec (some "prev") "line").2 "prev" rfl (by decide)⟩

/-- C5: on a two-child split with sizes `[0.5, 0.5]` and the minimum floor
`0.08`, `applyResize(node, 0, -0.6)` yields sizes exactly `[0.08, 0.92]`,
both entries positive. -/
theorem applyResize_clamp_example :
    applyResize
        (Node.split 0 Direction.horizontal [1/2, 1/2]
          [Node.leaf 1 ContentType.text defaultTextProps defaultImageProps,
           Node.leaf 2 ContentType.text defaultTextProps defaultImageProps]) 0 (-(6/10))
      = Node.split 0 Direction.horizontal [8/100, 92/100]
          [Node.leaf 1 ContentType.text defaultTextProps defaultImageProps,
           Node.leaf 2 ContentType.text defaultTextProps defaultImageProps] ∧
    (0:ℚ) < 8/100 ∧ (0:ℚ) < 92/100 := by
  refine ⟨?_, by norm_num, by norm_num⟩
  simp only [applyResize]
  norm_num [List.set]

/-- C1: on a SplitNode whose sizes sum to 1, for a boundary index with
`index ≤ children.length - 2`, `applyResize` keeps the id, direction and
children, replaces `sizes[index]` by
`clamp(sizes[index] + delta, 0.08, total - 0.08)` and `sizes[index+1]` by
`total` minus that value (`total` the pair's combined size before the
change), and leaves every other entry untouched. -/
theorem applyResize_boundary_spec (i : ℕ) (d : Direction) (s : List ℚ)
    (cs : List Node) (index : ℕ) (delta : ℚ)
    (hlen : s.length = cs.length) (hsum : s.sum = 1)
    (hidx : index + 2 ≤ cs.length) :
    ∃ s', applyResize (Node.split i d s cs) index delta = Node.split i d s' cs ∧
      s'.length = s.length ∧
      s'.getD index 0
        = clamp (s.getD index 0 + delta) (8/100)
            (s.getD index 0 + s.getD (index+1) 0 - 8/100) ∧
      s'.getD (index+1) 0
        = s.getD index 0 + s.getD (index+1) 0
            - clamp (s.getD index 0 + delta) (8/100)
                (s.getD index 0 + s.getD (index+1) 0 - 8/100) ∧
      ∀ j, j ≠ index → j ≠ index + 1 → s'.getD j 0 = s.getD j 0 := by
  have hidx1 : index + 1 < s.length := by omega
  have hidx0 : index < s.length := by omega
  refine ⟨_, rfl, ?_, ?_, ?_, ?_⟩
  · simp [List.length_set]
  · rw [getD_set_ne _ _ _ _ (by omega), getD_set_self _ _ _ hidx0]
    rfl
  · rw [getD_set_self]
    · rfl
    · simpa [List.length_set] using hidx1
  · intro j hj hj1
    rw [getD_set_ne _ _ _ _ (by omega), getD_set_ne _ _ _ _ (by omega)]

/-- Closed instance of `applyResize_boundary_spec` at a concrete two-child
split. -/
theorem applyResize_boundary_spec_witness :
    ([ (1:ℚ)/2, 1/2 ].length
        = ([Node.leaf 1 ContentType.text defaultTextProps defaultImageProps,
            Node.leaf 2 ContentType.text defaultTextProps defaultImageProps] : List Node).length) ∧
    ([ (1:ℚ)/2, 1/2 ].sum = 1) ∧
    (0 + 2 ≤ ([Node.leaf 1 ContentType.text defaultTextProps defaultImageProps,
            Node.leaf 2 ContentType.text defaultTextProps defaultImageProps] : List Node).length) ∧
    (∃ s', applyResize
        (Node.split 0 Direction.horizontal [1/2, 1/2]
          [Node.leaf 1 ContentType.text defaultTextProps defaultImageProps,
           Node.leaf 2 ContentType.text defaultTextProps defaultImageProps]) 0 (1/10)
        = Node.split 0 Direction.horizontal s'
            [Node.leaf 1 ContentType.text defaultTextProps defaultImageProps,
             Node.leaf 2 ContentType.text defaultTextProps defaultImageProps] ∧
      s'.length = ([ (1:ℚ)/2, 1/2 ] : List ℚ).length ∧
      s'.getD 0 0
        = clamp (([ (1:ℚ)/2, 1/2 ].getD 0 0) + 1/10) (8/100)
            (([ (1:ℚ)/2, 1/2 ].getD 0 0) + ([ (1:ℚ)/2, 1/2 ].getD 1 0) - 8/100) ∧
      s'.getD 1 0
        = ([ (1:ℚ)/2, 1/2 ].getD 0 0) + ([ (1:ℚ)/2, 1/2 ].getD 1 0)
            - clamp (([ (1:ℚ)/2, 1/2 ].getD 0 0) + 1/10) (8/100)
                (([ (1:ℚ)/2, 1/2 ].getD 0 0) + ([ (1:ℚ)/2, 1/2 ].getD 1 0) - 8/100) ∧
      ∀ j, j ≠ 0 → j ≠ 0 + 1 → s'.getD j 0 = [ (1:ℚ)/2, 1/2 ].getD j 0) := by
  refine ⟨by norm_num, by norm_num, by norm_num, ?_⟩
  exact applyResize_boundary_spec 0 Direction.horizontal [1/2, 1/2] _ 0 (1/10)
    (by norm_num) (by norm_num) (by norm_num)

mutual
/-- `findNode` agrees with a first-match search over the preorder listing. -/
theorem findNode_eq_aux (n : Node) (tid : ℕ) :
    findNode n tid = (preorder n).find? (fun m => m.nodeId == tid) := by
  match n with
  | Node.leaf i ct t im =>
      simp only [findNode, preorder]
      by_cases h : i = tid
      · rw [List.find?_cons_of_pos _ (by simp [Node.nodeId, h])]
        simp [h]
      · rw [List.find?_cons_of_neg _ (by simp [Node.nodeId, h])]
        simp [h, List.find?_nil]
  | Node.split i d s cs =>
      simp only [findNode, preorder]
      by_cases h : i = tid
      · rw [List.find?_cons_of_pos _ (by simp [Node.nodeId, h])]
        simp [h]
      · rw [List.find?_cons_of_neg _ (by simp [Node.nodeId, h]), if_neg h,
          findNodeList_eq_aux cs tid]
termination_by sizeOf n

/-- `findNodeList` agrees with a first-match search over the forest's
preorder listing. -/
theorem findNodeList_eq_aux (cs : List Node) (tid : ℕ) :
    findNodeList cs tid = (preorderList cs).find? (fun m => m.nodeId == tid) := by
  match cs with
  | [] => simp only [findNodeList, preorderList, List.find?_nil]
  | c :: cs' =>
      rw [findNodeList, preorderList, List.find?_append, findNode_eq_aux c tid,
        findNodeList_eq_aux cs' tid]
      cases (preorder c).find? (fun m => m.nodeId == tid) <;> simp [Option.or]
termination_by sizeOf cs
end

/-- C6: `findNode` performs a depth-first, root-first, left-to-right
search: it returns the first node of the preorder listing whose
identifier equals the target, and `none` exactly when no node of the tree
carries that identifier. -/
theorem findNode_dfs_spec (root : Node) (tid : ℕ) :
    findNode root tid = (preorder root).find? (fun m => m.nodeId == tid) ∧
    (findNode root tid = none ↔ ∀ m ∈ preorder root, m.nodeId ≠ tid) := by
  have h := findNode_eq_aux root tid
  refine ⟨h, ?_⟩
  rw [h, List.find?_eq_none]
  simp

/-- `countIdList` distributes over list append. -/
theorem countIdList_append (l1 l2 : List Node) (tid : ℕ) :
    countIdList (l1 ++ l2) tid = countIdList l1 tid + countIdList l2 tid := by
  induction l1 with
  | nil => simp [countIdList]
  | cons c cs ih =>
      simp only [List.cons_append, countIdList, ih]
      omega

/-- `updateNodeList` distributes over list append. -/
theorem updateNodeList_append (l1 l2 : List Node) (tid : ℕ) (f : Node → Node) :
    updateNodeList (l1 ++ l2) tid f
      = updateNodeList l1 tid f ++ updateNodeList l2 tid f := by
  induction l1 with
  | nil => simp [updateNodeList]
  | cons c cs ih => simp [updateNodeList, ih]

/-- A member's id-count is bounded by the forest's id-count. -/
theorem countId_le_countIdList (cs : List Node) (c : Node) (tid : ℕ) (h : c ∈ cs) :
    countId c tid ≤ countIdList cs tid := by
  induction cs with
  | nil => simp at h
  | cons x xs ih =>
      rcases List.mem_cons.mp h with rfl | hx
      · simp only [countIdList]; omega
      · have := ih hx
        simp only [countIdList]; omega

mutual
/-- `updateNode` is the identity on a tree that contains no node with the
target identifier. -/
theorem updateNode_countId_zero (n : Node) (tid : ℕ) (f : Node → Node)
    (h : countId n tid = 0) : updateNode n tid f = n := by
  match n with
  | Node.leaf i ct t im =>
      have hi : ¬ i = tid := by
        intro heq; simp [countId, heq] at h
      simp [updateNode, hi]
  | Node.split i d s cs =>
      have hi : ¬ i = tid := by
        intro heq; simp [countId, heq] at h
      have hl : countIdList cs tid = 0 := by
        simp only [countId] at h; omega
      simp only [updateNode, if_neg hi]
      rw [updateNodeList_countId_zero cs tid f hl]
termination_by sizeOf n

/-- `updateNodeList` is the identity on a forest with no occurrence of the
target identifier. -/
theorem updateNodeList_countId_zero (cs : List Node) (tid : ℕ) (f : Node → Node)
    (h : countIdList cs tid = 0) : updateNodeList cs tid f = cs := by
  match cs with
  | [] => simp only [updateNodeList]
  | c :: cs' =>
      simp only [countIdList] at h
      simp only [updateNodeList]
      rw [updateNode_countId_zero c tid f (by omega),
        updateNodeList_countId_zero cs' tid f (by omega)]
termination_by sizeOf cs
end

/-- A tree reached by a valid path contributes its root's identifier to
the count. -/
theorem subtreeAt_countId_pos (p : List ℕ) : ∀ (n m : Node),
    subtreeAt n p = some m → 1 ≤ countId n m.nodeId := by
  induction p with
  | nil =>
      intro n m h
      simp only [subtreeAt, Option.some.injEq] at h
      subst h
      cases n <;> simp [countId, Node.nodeId]
  | cons j p' ih =>
      intro n m h
      match n with
      | Node.leaf i ct t im => simp [subtreeAt] at h
      | Node.split i d s cs =>
          simp only [subtreeAt] at h
          split at h
          case _ c hg =>
            have hc := ih c m h
            have hg' : cs[j]? = some c := by rw [← List.get?_eq_getElem?]; exact hg
            have hmem : c ∈ cs := List.getElem?_mem hg'
            have := countId_le_countIdList cs c m.nodeId hmem
            simp only [countId]
            omega
          case _ => simp at h

/-- When the target identifier occurs exactly once, `updateNode` rewrites
the tree at the (unique) path of that node, applying the updater there. -/
theorem updateNode_path (p : List ℕ) : ∀ (n m : Node) (tid : ℕ) (f : Node → Node),
    countId n tid = 1 → subtreeAt n p = some m → m.nodeId = tid →
    updateNode n tid f = setSubtreeAt n p (f m) := by
  induction p with
  | nil =>
      intro n m tid f hc hs hid
      simp only [subtreeAt, Option.some.injEq] at hs
      subst hs
      match n with
      | Node.leaf i ct t im =>
          simp only [Node.nodeId] at hid
          simp [updateNode, setSubtreeAt, hid]
      | Node.split i d s cs =>
          simp only [Node.nodeId] at hid
          simp [updateNode, setSubtreeAt, hid]
  | cons j p' ih =>
      intro n m tid f hc hs hid
      match n with
      | Node.leaf i ct t im => simp [subtreeAt] at hs
      | Node.split i d s cs =>
          simp only [subtreeAt] at hs
          split at hs
          case _ c hg =>
            have hg' : cs[j]? = some c := by rw [← List.get?_eq_getElem?]; exact hg
            obtain ⟨hj, hcj⟩ := List.getElem?_eq_some.mp hg'
            have hdecomp : cs = cs.take j ++ c :: cs.drop (j+1) := by
              conv_lhs => rw [← List.take_append_drop j cs]
              rw [List.drop_eq_getElem_cons hj, hcj]
            have hpos := subtreeAt_countId_pos p' c m hs
            rw [hid] at hpos
            have hi : ¬ i = tid := by
              intro heq
              have hle := countId_le_countIdList cs c tid
                (by rw [hdecomp]; exact List.mem_append_right _ (List.mem_cons_self _ _))
              simp only [countId, if_pos heq] at hc
              omega
            have hlist : countIdList cs tid = 1 := by
              simp only [countId, if_neg hi] at hc; omega
            have hsplit : countIdList (cs.take j) tid + (countId c tid
                + countIdList (cs.drop (j+1)) tid) = 1 := by
              rw [hdecomp] at hlist
              rw [countIdList_append] at hlist
              simp only [countIdList] at hlist
              omega
            have hc1 : countId c tid = 1 := by omega
            have htake : countIdList (cs.take j) tid = 0 := by omega
            have hdrop : countIdList (cs.drop (j+1)) tid = 0 := by omega
            simp only [updateNode, if_neg hi]
            simp only [setSubtreeAt, hg]
            have hset : cs.set j (setSubtreeAt c p' (f m))
                = cs.take j ++ setSubtreeAt c p' (f m) :: cs.drop (j+1) := by
              rw [List.set_eq_take_append_cons_drop, if_pos hj]
            rw [hset]
            have hupd : updateNodeList cs tid f
                = cs.take j ++ setSubtreeAt c p' (f m) :: cs.drop (j+1) := by
              conv_lhs => rw [hdecomp]
              rw [updateNodeList_append]
              simp only [updateNodeList]
              rw [updateNodeList_countId_zero _ tid f htake,
                updateNodeList_countId_zero _ tid f hdrop,
                ih c m tid f hc1 hs hid]
            rw [hupd]
          case _ => simp at hs

/-- Reading back the subtree just written along a valid path. -/
theorem subtreeAt_setSubtreeAt (p : List ℕ) : ∀ (n m x : Node),
    subtreeAt n p = some m → subtreeAt (setSubtreeAt n p x) p = some x := by
  induction p with
  | nil => intro n m x _; simp [subtreeAt, setSubtreeAt]
  | cons j p' ih =>
      intro n m x h
      match n with
      | Node.leaf i ct t im => simp [subtreeAt] at h
      | Node.split i d s cs =>
          simp only [subtreeAt] at h
          split at h
          case _ c hg =>
            have hg' : cs[j]? = some c := by rw [← List.get?_eq_getElem?]; exact hg
            obtain ⟨hj, _⟩ := List.getElem?_eq_some.mp hg'
            simp only [setSubtreeAt, hg]
            simp only [subtreeAt]
            have hgs : (cs.set j (setSubtreeAt c p' x)).get? j
                = some (setSubtreeAt c p' x) := by
              rw [List.get?_eq_getElem?, List.getElem?_set_self (by simpa using hj)]
            rw [hgs]
            exact ih c m x h
          case _ => simp at h

/-- C2: `updateNode` leaves a tree unchanged when no node carries the
target identifier, and otherwise (identifier present exactly once, at any
path) replaces precisely that node by the updater applied to it. -/
theorem updateNode_spec (root : Node) (tid : ℕ) (f : Node → Node) :
    (countId root tid = 0 → updateNode root tid f = root) ∧
    (∀ p m, countId root tid = 1 → subtreeAt root p = some m → m.nodeId = tid →
        updateNode root tid f = setSubtreeAt root p (f m)) :=
  ⟨fun h => updateNode_countId_zero root tid f h,
   fun p m hc hs hid => updateNode_path p root m tid f hc hs hid⟩

/-- Closed instances of the two cases of `updateNode_spec` on a concrete
two-panel page: a missing id is a no-op, and a present id is rewritten at
its path. -/
theorem updateNode_spec_witness :
    (countId samplePage 5 = 0 ∧
      updateNode samplePage 5 (setContentTypeUpdater ContentType.image) = samplePage) ∧
    (countId samplePage 1 = 1 ∧ subtreeAt samplePage [0] = some sampleLeafA ∧
      sampleLeafA.nodeId = 1 ∧
      updateNode samplePage 1 (setContentTypeUpdater ContentType.image)
        = setSubtreeAt samplePage [0]
            (setContentTypeUpdater ContentType.image sampleLeafA)) := by
  have hc5 : countId samplePage 5 = 0 := by
    simp [samplePage, sampleLeafA, sampleLeafB, countId, countIdList]
  have hc1 : countId samplePage 1 = 1 := by
    simp [samplePage, sampleLeafA, sampleLeafB, countId, countIdList]
  have hs : subtreeAt samplePage [0] = some sampleLeafA := by
    simp [samplePage, subtreeAt]
  exact ⟨⟨hc5, (updateNode_spec samplePage 5 (setContentTypeUpdater ContentType.image)).1 hc5⟩,
    hc1, hs, rfl,
    (updateNode_spec samplePage 1 (setContentTypeUpdater ContentType.image)).2
      [0] sampleLeafA hc1 hs rfl⟩

/-- C8: applying the inspector's content-type switch through `updateNode`
to the (unique) leaf with the target identifier changes only that leaf's
`contentType`: its `textProps` and `imageProps` records are preserved
verbatim at the same tree position. -/
theorem contentTypeSwitch_preserves_props (root : Node) (p : List ℕ)
    (i tid : ℕ) (ct v : ContentType) (t : TextProps) (im : ImageProps)
    (hsub : subtreeAt root p = some (Node.leaf i ct t im))
    (hcount : countId root tid = 1) (hid : i = tid) :
    subtreeAt (updateNode root tid (setContentTypeUpdater v)) p
      = some (Node.leaf i v t im) := by
  rw [updateNode_path p root (Node.leaf i ct t im) tid (setContentTypeUpdater v)
    hcount hsub (by simpa [Node.nodeId] using hid)]
  have hupd : setContentTypeUpdater v (Node.leaf i ct t im) = Node.leaf i v t im := rfl
  rw [hupd]
  exact subtreeAt_setSubtreeAt p root (Node.leaf i ct t im) (Node.leaf i v t im) hsub

/-- Closed instance of `contentTypeSwitch_preserves_props` on a concrete
page: switching leaf 1 from text to image keeps both prop records. -/
theorem contentTypeSwitch_preserves_props_witness :
    subtreeAt samplePage [0] = some (Node.leaf 1 ContentType.text
      defaultTextProps defaultImageProps) ∧
    countId samplePage 1 = 1 ∧
    subtreeAt (updateNode samplePage 1 (setContentTypeUpdater ContentType.image)) [0]
      = some (Node.leaf 1 ContentType.image defaultTextProps defaultImageProps) := by
  have hs : subtreeAt samplePage [0] = some (Node.leaf 1 ContentType.text
      defaultTextProps defaultImageProps) := by
    simp [samplePage, sampleLeafA, subtreeAt]
  have hc : countId samplePage 1 = 1 := by
    simp [samplePage, sampleLeafA, sampleLeafB, countId, countIdList]
  exact ⟨hs, hc,
    contentTypeSwitch_preserves_props samplePage [0] 1 1 ContentType.text
      ContentType.image defaultTextProps defaultImageProps hs hc rfl⟩

/-- `mapIdx` with an index-independent function is `map`. -/
theorem mapIdx_const_eq_map (g : ℚ → ℚ) (l : List ℚ) :
    (l.mapIdx fun _ v => g v) = l.map g := by
  induction l with
  | nil => simp
  | cons x xs ih => simp [List.mapIdx_cons, ih]

/-- An indexed update that writes `a` at one position and `g` elsewhere is
a `set` into the mapped list. -/
theorem mapIdx_ite_eq_set_map (a : ℚ) (g : ℚ → ℚ) : ∀ (s : List ℚ) (i : ℕ),
    (s.mapIdx fun idx v => if idx = i then a else g v) = (s.map g).set i a := by
  intro s
  induction s with
  | nil => intro i; simp
  | cons x xs ih =>
      intro i
      cases i with
      | zero =>
          simp only [List.mapIdx_cons, if_pos rfl, List.map_cons, List.set_cons_zero]
          congr 1
          have hfun : (fun idx v => if idx + 1 = 0 then a else g v)
              = (fun (_ : ℕ) (v : ℚ) => g v) := by
            funext idx v; simp
          rw [hfun, mapIdx_const_eq_map]
      | succ m =>
          simp only [List.mapIdx_cons, List.map_cons, List.set_cons_succ]
          have hzero : (if (0 : ℕ) = m + 1 then a else g x) = g x := by simp
          rw [hzero]
          congr 1
          have hfun : (fun idx v => if idx + 1 = m + 1 then a else g v)
              = (fun idx (v : ℚ) => if idx = m then a else g v) := by
            funext idx v
            simp [Nat.add_right_cancel_iff]
          rw [hfun, ih m]

/-- C3 counterexample: on the valid three-column sizes `[0.33, 0.33, 0.34]`
(positive, summing to 1), setting the first slider to `0.95` clamps both
rescaled siblings up to the floor `0.05`, and the resulting sizes
`[0.95, 0.05, 0.05]` sum to `1.05`, not 1. -/
theorem splitInspectorSetSize_not_sum_one :
    splitInspectorSetSize [33/100, 33/100, 34/100] 0 (95/100)
      = [95/100, 5/100, 5/100] ∧
    (splitInspectorSetSize [33/100, 33/100, 34/100] 0 (95/100)).sum ≠ 1 := by
  have h : splitInspectorSetSize [33/100, 33/100, 34/100] 0 (95/100)
      = [95/100, 5/100, 5/100] := by
    simp only [splitInspectorSetSize, List.mapIdx_cons, List.mapIdx_nil,
      List.getD_cons_zero]
    norm_num [min_def, max_def]
  refine ⟨h, ?_⟩
  rw [h]
  norm_num

/-- C3 amended: after the inspector's single-entry size change on a valid
sizes list (at least two entries, positive, summing to 1), every
resulting entry lies in `[0.05, 0.95]` and the resulting entries sum to
at least 1 — but, as `splitInspectorSetSize_not_sum_one` shows, the sum
can exceed 1 when a rescaled sibling is clamped up to the floor, so the
sizes need not sum to exactly 1. -/
theorem splitInspectorSetSize_amended (s : List ℚ) (i : ℕ) (value : ℚ)
    (hlen : 2 ≤ s.length) (hpos : ∀ v ∈ s, 0 < v) (hsum : s.sum = 1)
    (hi : i < s.length) :
    (∀ v ∈ splitInspectorSetSize s i value, 5/100 ≤ v ∧ v ≤ 95/100) ∧
    1 ≤ (splitInspectorSetSize s i value).sum := by
  have hgetD : s.getD i 0 = s[i] := by
    rw [List.getD_eq_getElem?_getD, List.getElem?_eq_getElem hi]
    rfl
  have hsD : s = s.take i ++ s[i] :: s.drop (i + 1) := by
    conv_lhs => rw [← List.take_append_drop i s]
    rw [List.drop_eq_getElem_cons hi]
  have hsumD : (s.take i).sum + s[i] + (s.drop (i + 1)).sum = 1 := by
    have h1 : (s.take i ++ s[i] :: s.drop (i + 1)).sum = 1 := by
      rw [← hsD]; exact hsum
    simp only [List.sum_append, List.sum_cons] at h1
    linarith
  have hApos : ∀ v ∈ s.take i, 0 < v := fun v hv => hpos v (List.mem_of_mem_take hv)
  have hBpos : ∀ v ∈ s.drop (i + 1), 0 < v := fun v hv => hpos v (List.mem_of_mem_drop hv)
  have hABne : (s.take i ++ s.drop (i + 1)) ≠ [] := by
    intro hnil
    have hlen' : (s.take i ++ s.drop (i + 1)).length = 0 := by rw [hnil]; rfl
    rw [List.length_append, List.length_take, List.length_drop] at hlen'
    omega
  have hABsum : 0 < (s.take i).sum + (s.drop (i + 1)).sum := by
    have := List.sum_pos (s.take i ++ s.drop (i + 1))
      (by intro x hx
          rcases List.mem_append.mp hx with hx' | hx'
          · exact hApos x hx'
          · exact hBpos x hx') hABne
    simpa [List.sum_append] using this
  have hdenom : 1 - s.getD i 0 = (s.take i).sum + (s.drop (i + 1)).sum := by
    rw [hgetD]; linarith
  have hdpos : 0 < 1 - s.getD i 0 := by rw [hdenom]; exact hABsum
  have hdne : 1 - s.getD i 0 ≠ 0 := ne_of_gt hdpos
  have hval_lb : 5/100 ≤ min (95/100) (max (5/100) value) :=
    le_min (by norm_num) (le_max_left _ _)
  have hval_ub : min (95/100) (max (5/100) value) ≤ 95/100 := min_le_left _ _
  have hrest_lb : (5:ℚ)/100 ≤ max (5/100) (1 - min (95/100) (max (5/100) value)) :=
    le_max_left _ _
  have hrest_ub : max (5/100) (1 - min (95/100) (max (5/100) value)) ≤ 95/100 := by
    apply max_le (by norm_num)
    linarith
  have hfnonneg :
      0 ≤ max (5/100) (1 - min (95/100) (max (5/100) value)) / (1 - s.getD i 0) :=
    le_of_lt (div_pos (lt_of_lt_of_le (by norm_num) hrest_lb) hdpos)
  have hform : splitInspectorSetSize s i value
      = (s.map (fun v => max (5/100)
          (v * (max (5/100) (1 - min (95/100) (max (5/100) value))
            / (1 - s.getD i 0))))).set i (min (95/100) (max (5/100) value)) := by
    simp only [splitInspectorSetSize]
    exact mapIdx_ite_eq_set_map _ _ s i
  have hset : (s.map (fun v => max (5/100)
        (v * (max (5/100) (1 - min (95/100) (max (5/100) value))
          / (1 - s.getD i 0))))).set i (min (95/100) (max (5/100) value))
      = (s.take i).map (fun v => max (5/100)
          (v * (max (5/100) (1 - min (95/100) (max (5/100) value))
            / (1 - s.getD i 0))))
        ++ min (95/100) (max (5/100) value)
          :: (s.drop (i + 1)).map (fun v => max (5/100)
            (v * (max (5/100) (1 - min (95/100) (max (5/100) value))
              / (1 - s.getD i 0)))) := by
    rw [List.set_eq_take_append_cons_drop, if_pos (by simpa using hi),
      List.map_take, List.map_drop]
  have hwbound : ∀ w ∈ s.take i ++ s.drop (i + 1),
      w * (max (5/100) (1 - min (95/100) (max (5/100) value))
        / (1 - s.getD i 0)) ≤ 95/100 := by
    intro w hw
    have hwpos : 0 < w := by
      rcases List.mem_append.mp hw with hw' | hw'
      · exact hApos w hw'
      · exact hBpos w hw'
    have hwle : w ≤ (s.take i).sum + (s.drop (i + 1)).sum := by
      rcases List.mem_append.mp hw with hw' | hw'
      · have h1 := List.single_le_sum (fun x hx => le_of_lt (hApos x hx)) w hw'
        have h2 : 0 ≤ (s.drop (i + 1)).sum :=
          List.sum_nonneg (fun x hx => le_of_lt (hBpos x hx))
        linarith
      · have h1 := List.single_le_sum (fun x hx => le_of_lt (hBpos x hx)) w hw'
        have h2 : 0 ≤ (s.take i).sum :=
          List.sum_nonneg (fun x hx => le_of_lt (hApos x hx))
        linarith
    have hwle' : w ≤ 1 - s.getD i 0 := by rw [hdenom]; exact hwle
    calc w * (max (5/100) (1 - min (95/100) (max (5/100) value)) / (1 - s.getD i 0))
        ≤ (1 - s.getD i 0)
            * (max (5/100) (1 - min (95/100) (max (5/100) value)) / (1 - s.getD i 0)) :=
          mul_le_mul_of_nonneg_right hwle' hfnonneg
      _ = max (5/100) (1 - min (95/100) (max (5/100) value)) := by
          rw [mul_comm, div_mul_cancel₀ _ hdne]
      _ ≤ 95/100 := hrest_ub
  constructor
  · intro v hv
    rw [hform, hset] at hv
    rcases List.mem_append.mp hv with hv' | hv'
    · obtain ⟨w, hw, rfl⟩ := List.mem_map.mp hv'
      exact ⟨le_max_left _ _,
        max_le (by norm_num) (hwbound w (List.mem_append_left _ hw))⟩
    · rcases List.mem_cons.mp hv' with rfl | hv''
      · exact ⟨hval_lb, hval_ub⟩
      · obtain ⟨w, hw, rfl⟩ := List.mem_map.mp hv''
        exact ⟨le_max_left _ _,
          max_le (by norm_num) (hwbound w (List.mem_append_right _ hw))⟩
  · rw [hform, hset]
    have hA : ((s.take i).map (fun v => max (5/100)
        (v * (max (5/100) (1 - min (95/100) (max (5/100) value))
          / (1 - s.getD i 0))))).sum
        ≥ (s.take i).sum
            * (max (5/100) (1 - min (95/100) (max (5/100) value))
              / (1 - s.getD i 0)) := by
      have := List.sum_le_sum (l := s.take i)
        (f := fun v => v * (max (5/100) (1 - min (95/100) (max (5/100) value))
          / (1 - s.getD i 0)))
        (g := fun v => max (5/100)
          (v * (max (5/100) (1 - min (95/100) (max (5/100) value))
            / (1 - s.getD i 0))))
        (fun v _ => le_max_right _ _)
      calc (s.take i).sum * (max (5/100) (1 - min (95/100) (max (5/100) value))
            / (1 - s.getD i 0))
          = ((s.take i).map (fun v => v
              * (max (5/100) (1 - min (95/100) (max (5/100) value))
                / (1 - s.getD i 0)))).sum := by
            rw [List.sum_map_mul_right]
            simp
        _ ≤ _ := this
    have hB : ((s.drop (i + 1)).map (fun v => max (5/100)
        (v * (max (5/100) (1 - min (95/100) (max (5/100) value))
          / (1 - s.getD i 0))))).sum
        ≥ (s.drop (i + 1)).sum
            * (max (5/100) (1 - min (95/100) (max (5/100) value))
              / (1 - s.getD i 0)) := by
      have := List.sum_le_sum (l := s.drop (i + 1))
        (f := fun v => v * (max (5/100) (1 - min (95/100) (max (5/100) value))
          / (1 - s.getD i 0)))
        (g := fun v => max (5/100)
          (v * (max (5/100) (1 - min (95/100) (max (5/100) value))
            / (1 - s.getD i 0))))
        (fun v _ => le_max_right _ _)
      calc (s.drop (i + 1)).sum * (max (5/100) (1 - min (95/100) (max (5/100) value))
            / (1 - s.getD i 0))
          = ((s.drop (i + 1)).map (fun v => v
              * (max (5/100) (1 - min (95/100) (max (5/100) value))
                / (1 - s.getD i 0)))).sum := by
            rw [List.sum_map_mul_right]
            simp
        _ ≤ _ := this
    have hfactor_total : ((s.take i).sum + (s.drop (i + 1)).sum)
        * (max (5/100) (1 - min (95/100) (max (5/100) value)) / (1 - s.getD i 0))
        = max (5/100) (1 - min (95/100) (max (5/100) value)) := by
      rw [← hdenom, mul_comm, div_mul_cancel₀ _ hdne]
    have hrest_ge : 1 - min (95/100) (max (5/100) value)
        ≤ max (5/100) (1 - min (95/100) (max (5/100) value)) := le_max_right _ _
    simp only [List.sum_append, List.sum_cons]
    nlinarith [hA, hB, hfactor_total, hrest_ge]

/-- Closed instance of `splitInspectorSetSize_amended` on the two-column
sizes with the first slider moved to `0.6`. -/
theorem splitInspectorSetSize_amended_witness :
    (2 ≤ ([1/2, 1/2] : List ℚ).length) ∧
    (∀ v ∈ ([1/2, 1/2] : List ℚ), 0 < v) ∧
    (([1/2, 1/2] : List ℚ).sum = 1) ∧
    (0 < ([1/2, 1/2] : List ℚ).length) ∧
    ((∀ v ∈ splitInspectorSetSize [1/2, 1/2] 0 (6/10), 5/100 ≤ v ∧ v ≤ 95/100) ∧
      1 ≤ (splitInspectorSetSize [1/2, 1/2] 0 (6/10)).sum) := by
  refine ⟨by norm_num, ?_, by norm_num, by norm_num, ?_⟩
  · intro v hv
    rcases List.mem_cons.mp hv with rfl | hv'
    · norm_num
    · rcases List.mem_cons.mp hv' with rfl | hv''
      · norm_num
      · simp at hv''
  · exact splitInspectorSetSize_amended [1/2, 1/2] 0 (6/10) (by norm_num)
      (by intro v hv
          rcases List.mem_cons.mp hv with rfl | hv'
          · norm_num
          · rcases List.mem_cons.mp hv' with rfl | hv''
            · norm_num
            · simp at hv'')
      (by norm_num) (by norm_num)

/-- Membership in a forest's preorder is membership in some member's
preorder. -/
theorem mem_preorderList (m : Node) : ∀ (cs : List Node),
    m ∈ preorderList cs ↔ ∃ c ∈ cs, m ∈ preorder c := by
  intro cs
  induction cs with
  | nil => simp [preorderList]
  | cons c cs' ih =>
      simp only [preorderList, List.mem_append, ih, List.mem_cons]
      constructor
      · rintro (h | ⟨c', hc', hm⟩)
        · exact ⟨c, Or.inl rfl, h⟩
        · exact ⟨c', Or.inr hc', hm⟩
      · rintro ⟨c', (rfl | hc'), hm⟩
        · exact Or.inl hm
        · exact Or.inr ⟨c', hc', hm⟩

/-- The whole-tree invariant at a split is the root check plus the
invariant on every child. -/
theorem treeOk_split (i : ℕ) (d : Direction) (s : List ℚ) (cs : List Node) :
    treeOk (Node.split i d s cs) ↔
      splitOk (Node.split i d s cs) = true ∧ ∀ c ∈ cs, treeOk c := by
  simp only [treeOk, preorder, List.mem_cons, mem_preorderList]
  constructor
  · intro h
    exact ⟨h _ (Or.inl rfl), fun c hc m hm => h m (Or.inr ⟨c, hc, hm⟩)⟩
  · rintro ⟨h1, h2⟩ m (rfl | ⟨c, hc, hm⟩)
    · exact h1
    · exact h2 c hc m hm

/-- The single-node check at a split, unfolded. -/
theorem splitOk_split_iff (i : ℕ) (d : Direction) (s : List ℚ) (cs : List Node) :
    splitOk (Node.split i d s cs) = true ↔
      s.sum = 1 ∧ (∀ x ∈ s, 0 < x) ∧ s.length = cs.length ∧ 1 ≤ cs.length := by
  simp [splitOk, List.all_eq_true, and_assoc]

/-- `applyResize` preserves the sum of a split's sizes exactly. -/
theorem applyResize_sizes_sum (i : ℕ) (d : Direction) (s : List ℚ) (cs : List Node)
    (index : ℕ) (delta : ℚ) (h : index + 1 < s.length) :
    (applyResize (Node.split i d s cs) index delta).sizesOf.sum = s.sum := by
  simp only [applyResize, Node.sizesOf]
  rw [sum_set_getD _ _ _ (by simpa [List.length_set] using h),
    getD_set_ne _ _ _ _ (by omega),
    sum_set_getD _ _ _ (by omega)]
  ring

/-- `removeNodeList` preserves the length of a forest. -/
theorem removeNodeList_length (cs : List Node) (tid : ℕ) :
    (removeNodeList cs tid).length = cs.length := by
  induction cs with
  | nil => simp [removeNodeList]
  | cons c cs' ih => simp [removeNodeList, ih]

mutual
/-- The sizes invariant is preserved by `removeNode` at every node. -/
theorem removeNode_treeOk (n : Node) (tid : ℕ) (h : treeOk n) :
    treeOk (removeNode n tid) := by
  match n with
  | Node.leaf i ct t im =>
      simp only [removeNode]
      simpa using h
  | Node.split i d s cs =>
      rw [treeOk_split] at h
      obtain ⟨hok, hkids⟩ := h
      rw [splitOk_split_iff] at hok
      obtain ⟨hsum, hpos, hlen, hone⟩ := hok
      simp only [removeNode]
      split
      case _ j hfind =>
        by_cases hle : cs.length ≤ 1
        · rw [if_pos hle, treeOk_split, splitOk_split_iff]
          exact ⟨⟨hsum, hpos, hlen, hone⟩, hkids⟩
        · rw [if_neg hle]
          show treeOk (Node.split i d
            (((s.take j ++ s.drop (j+1))).map
              (fun v => v / (s.take j ++ s.drop (j+1)).sum))
            (cs.take j ++ cs.drop (j+1)))
          obtain ⟨hjcs, _, _⟩ := List.findIdx?_eq_some_iff_getElem.mp hfind
          have hjs : j < s.length := by omega
          have hsD : s = s.take j ++ s[j] :: s.drop (j + 1) := by
            conv_lhs => rw [← List.take_append_drop j s]
            rw [List.drop_eq_getElem_cons hjs]
          have hsumD : (s.take j).sum + s[j] + (s.drop (j + 1)).sum = 1 := by
            have h1 : (s.take j ++ s[j] :: s.drop (j + 1)).sum = 1 := by
              rw [← hsD]; exact hsum
            simp only [List.sum_append, List.sum_cons] at h1
            linarith
          have hpos' : ∀ v ∈ s.take j ++ s.drop (j+1), 0 < v := by
            intro v hv
            rcases List.mem_append.mp hv with hv' | hv'
            · exact hpos v (List.mem_of_mem_take hv')
            · exact hpos v (List.mem_of_mem_drop hv')
          have hne' : (s.take j ++ s.drop (j+1)) ≠ [] := by
            intro hnil
            have hlen' : (s.take j ++ s.drop (j+1)).length = 0 := by rw [hnil]; rfl
            rw [List.length_append, List.length_take, List.length_drop] at hlen'
            omega
          have hspos : 0 < (s.take j ++ s.drop (j+1)).sum :=
            List.sum_pos _ hpos' hne'
          rw [treeOk_split, splitOk_split_iff]
          refine ⟨⟨?_, ?_, ?_, ?_⟩, ?_⟩
          · have hmap : (((s.take j ++ s.drop (j+1))).map
                (fun v => v / (s.take j ++ s.drop (j+1)).sum)).sum
                = (s.take j ++ s.drop (j+1)).sum
                  * ((s.take j ++ s.drop (j+1)).sum)⁻¹ := by
              simp only [div_eq_mul_inv]
              rw [List.sum_map_mul_right]
              simp
            rw [hmap, mul_inv_cancel₀ (ne_of_gt hspos)]
          · intro x hx
            obtain ⟨w, hw, rfl⟩ := List.mem_map.mp hx
            exact div_pos (hpos' w hw) hspos
          · rw [List.length_map, List.length_append, List.length_append,
              List.length_take, List.length_take, List.length_drop,
              List.length_drop]
            omega
          · rw [List.length_append, List.length_take, List.length_drop]
            omega
          · intro c hc
            rcases List.mem_append.mp hc with hc' | hc'
            · exact hkids c (List.mem_of_mem_take hc')
            · exact hkids c (List.mem_of_mem_drop hc')
      case _ hfind =>
        rw [treeOk_split, splitOk_split_iff]
        refine ⟨⟨hsum, hpos, ?_, ?_⟩, ?_⟩
        · rw [removeNodeList_length]; exact hlen
        · rw [removeNodeList_length]; exact hone
        · exact removeNodeList_treeOk cs tid hkids
termination_by sizeOf n

/-- The sizes invariant is preserved by removal over a forest. -/
theorem removeNodeList_treeOk (cs : List Node) (tid : ℕ)
    (h : ∀ c ∈ cs, treeOk c) :
    ∀ c' ∈ removeNodeList cs tid, treeOk c' := by
  match cs with
  | [] => intro c' hc'; simp [removeNodeList] at hc'
  | c :: cs' =>
      intro c' hc'
      simp only [removeNodeList, List.mem_cons] at hc'
      rcases hc' with rfl | hc''
      · exact removeNode_treeOk c tid (h c (List.mem_cons_self _ _))
      · exact removeNodeList_treeOk cs' tid
          (fun x hx => h x (List.mem_cons_of_mem _ hx)) c' hc''
termination_by sizeOf cs
end

/-- Deep copy preserves the length of a forest. -/
theorem cloneFreshList_length (cs : List Node) : ∀ k : ℕ,
    ((cloneFreshList cs k).1).length = cs.length := by
  induction cs with
  | nil => intro k; simp [cloneFreshList]
  | cons c cs' ih => intro k; simp [cloneFreshList, ih]

mutual
/-- The sizes invariant is preserved by the fresh-id deep copy. -/
theorem cloneFresh_treeOk (n : Node) (k : ℕ) (h : treeOk n) :
    treeOk (cloneFresh n k).1 := by
  match n with
  | Node.leaf i ct t im =>
      simp only [cloneFresh]
      intro m hm
      simp only [preorder, List.mem_singleton] at hm
      subst hm
      rfl
  | Node.split i d s cs =>
      rw [treeOk_split] at h
      obtain ⟨hok, hkids⟩ := h
      rw [splitOk_split_iff] at hok
      obtain ⟨hsum, hpos, hlen, hone⟩ := hok
      simp only [cloneFresh]
      show treeOk (Node.split k d s (cloneFreshList cs (k + 1)).1)
      rw [treeOk_split, splitOk_split_iff]
      refine ⟨⟨hsum, hpos, ?_, ?_⟩, ?_⟩
      · rw [cloneFreshList_length]; exact hlen
      · rw [cloneFreshList_length]; exact hone
      · exact cloneFreshList_treeOk cs (k + 1) hkids
termination_by sizeOf n

/-- The sizes invariant is preserved by deep copy over a forest. -/
theorem cloneFreshList_treeOk (cs : List Node) (k : ℕ)
    (h : ∀ c ∈ cs, treeOk c) :
    ∀ c' ∈ (cloneFreshList cs k).1, treeOk c' := by
  match cs with
  | [] => intro c' hc'; simp [cloneFreshList] at hc'
  | c :: cs' =>
      intro c' hc'
      simp only [cloneFreshList, List.mem_cons] at hc'
      rcases hc' with rfl | hc''
      · exact cloneFresh_treeOk c k (h c (List.mem_cons_self _ _))
      · exact cloneFreshList_treeOk cs' (cloneFresh c k).2
          (fun x hx => h x (List.mem_cons_of_mem _ hx)) c' hc''
termination_by sizeOf cs
end

/-- Duplication over a forest preserves its length. -/
theorem duplicateList_length (cs : List Node) (tid : ℕ) : ∀ k : ℕ,
    ((duplicateList cs tid k).1).length = cs.length := by
  induction cs with
  | nil => intro k; simp [duplicateList]
  | cons c cs' ih => intro k; simp [duplicateList, ih]

mutual
/-- The sizes invariant is preserved by `duplicateNodeInParent` at every
node. -/
theorem duplicateNodeInParent_treeOk (n : Node) (tid k : ℕ) (h : treeOk n) :
    treeOk (duplicateNodeInParent n tid k).1 := by
  match n with
  | Node.leaf i ct t im =>
      simp only [duplicateNodeInParent]
      simpa using h
  | Node.split i d s cs =>
      rw [treeOk_split] at h
      obtain ⟨hok, hkids⟩ := h
      rw [splitOk_split_iff] at hok
      obtain ⟨hsum, hpos, hlen, hone⟩ := hok
      simp only [duplicateNodeInParent]
      split
      case _ j hfind =>
        split
        case _ c sz hgc hgs =>
          show treeOk (Node.split i d
            (s.take j ++ sz / 2 :: sz / 2 :: s.drop (j + 1))
            (cs.take j ++ c :: (cloneFresh c k).1 :: cs.drop (j + 1)))
          have hgs' : s[j]? = some sz := by rw [← List.get?_eq_getElem?]; exact hgs
          obtain ⟨hjs, hsj⟩ := List.getElem?_eq_some.mp hgs'
          have hgc' : cs[j]? = some c := by rw [← List.get?_eq_getElem?]; exact hgc
          have hcmem : c ∈ cs := List.getElem?_mem hgc'
          have hsD : s = s.take j ++ s[j] :: s.drop (j + 1) := by
            conv_lhs => rw [← List.take_append_drop j s]
            rw [List.drop_eq_getElem_cons hjs]
          have hsumD : (s.take j).sum + s[j] + (s.drop (j + 1)).sum = 1 := by
            have h1 : (s.take j ++ s[j] :: s.drop (j + 1)).sum = 1 := by
              rw [← hsD]; exact hsum
            simp only [List.sum_append, List.sum_cons] at h1
            linarith
          have hszpos : 0 < sz := by
            rw [← hsj]
            exact hpos _ (List.getElem_mem hjs)
          rw [treeOk_split, splitOk_split_iff]
          refine ⟨⟨?_, ?_, ?_, ?_⟩, ?_⟩
          · simp only [List.sum_append, List.sum_cons]
            rw [hsj] at hsumD
            linarith
          · intro x hx
            rcases List.mem_append.mp hx with hx' | hx'
            · exact hpos x (List.mem_of_mem_take hx')
            · rcases List.mem_cons.mp hx' with rfl | hx''
              · linarith
              · rcases List.mem_cons.mp hx'' with rfl | hx'''
                · linarith
                · exact hpos x (List.mem_of_mem_drop hx''')
          · simp only [List.length_append, List.length_cons, List.length_take,
              List.length_drop]
            omega
          · simp only [List.length_append, List.length_cons, List.length_take,
              List.length_drop]
            omega
          · intro c' hc'
            rcases List.mem_append.mp hc' with hc'' | hc''
            · exact hkids c' (List.mem_of_mem_take hc'')
            · rcases List.mem_cons.mp hc'' with rfl | hc'''
              · exact hkids c' hcmem
              · rcases List.mem_cons.mp hc''' with rfl | hc''''
                · exact cloneFresh_treeOk c k (hkids c hcmem)
                · exact hkids c' (List.mem_of_mem_drop hc'''')
        case _ hnc =>
          rw [treeOk_split, splitOk_split_iff]
          exact ⟨⟨hsum, hpos, hlen, hone⟩, hkids⟩
      case _ hfind =>
        show treeOk (Node.split i d s (duplicateList cs tid k).1)
        rw [treeOk_split, splitOk_split_iff]
        refine ⟨⟨hsum, hpos, ?_, ?_⟩, ?_⟩
        · rw [duplicateList_length]; exact hlen
        · rw [duplicateList_length]; exact hone
        · exact duplicateList_treeOk cs tid k hkids
termination_by sizeOf n

/-- The sizes invariant is preserved by duplication over a forest. -/
theorem duplicateList_treeOk (cs : List Node) (tid k : ℕ)
    (h : ∀ c ∈ cs, treeOk c) :
    ∀ c' ∈ (duplicateList cs tid k).1, treeOk c' := by
  match cs with
  | [] => intro c' hc'; simp [duplicateList] at hc'
  | c :: cs' =>
      intro c' hc'
      simp only [duplicateList, List.mem_cons] at hc'
      rcases hc' with rfl | hc''
      · exact duplicateNodeInParent_treeOk c tid k (h c (List.mem_cons_self _ _))
      · exact duplicateList_treeOk cs' tid (duplicateNodeInParent c tid k).2
          (fun x hx => h x (List.mem_cons_of_mem _ hx)) c' hc''
termination_by sizeOf cs
end

/-- C4: on a SplitNode whose sizes sum to 1 within tolerance, `applyResize`
at a valid boundary keeps the sizes' sum within `1e-6` of 1; and starting
from a tree satisfying the sizes invariant, every SplitNode of the trees
produced by `removeNode` and by `duplicateNodeInParent` has sizes summing
to within `1e-6` of 1. -/
theorem sizes_sum_invariant (i : ℕ) (d : Direction) (s : List ℚ) (cs : List Node)
    (index : ℕ) (delta : ℚ) (root : Node) (tid k : ℕ) :
    (index + 1 < s.length → |s.sum - 1| < 1/1000000 →
      |(applyResize (Node.split i d s cs) index delta).sizesOf.sum - 1| < 1/1000000) ∧
    (treeOk root → ∀ i' d' s' cs',
      Node.split i' d' s' cs' ∈ preorder (removeNode root tid) →
      |s'.sum - 1| < 1/1000000) ∧
    (treeOk root → ∀ i' d' s' cs',
      Node.split i' d' s' cs' ∈ preorder ((duplicateNodeInParent root tid k).1) →
      |s'.sum - 1| < 1/1000000) := by
  refine ⟨?_, ?_, ?_⟩
  · intro hidx htol
    rw [applyResize_sizes_sum i d s cs index delta hidx]
    exact htol
  · intro hok i' d' s' cs' hmem
    have h2 := removeNode_treeOk root tid hok _ hmem
    rw [splitOk_split_iff] at h2
    rw [h2.1]
    norm_num
  · intro hok i' d' s' cs' hmem
    have h2 := duplicateNodeInParent_treeOk root tid k hok _ hmem
    rw [splitOk_split_iff] at h2
    rw [h2.1]
    norm_num

/-- Closed instance of `sizes_sum_invariant` on a concrete two-panel page. -/
theorem sizes_sum_invariant_witness :
    (0 + 1 < ([1/2, 1/2] : List ℚ).length) ∧
    (|([1/2, 1/2] : List ℚ).sum - 1| < 1/1000000) ∧
    treeOk samplePage ∧
    |(applyResize (Node.split 0 Direction.horizontal [1/2, 1/2]
        [sampleLeafA, sampleLeafB]) 0 (1/10)).sizesOf.sum - 1| < 1/1000000 ∧
    (∀ i' d' s' cs', Node.split i' d' s' cs' ∈ preorder (removeNode samplePage 1) →
      |s'.sum - 1| < 1/1000000) ∧
    (∀ i' d' s' cs',
      Node.split i' d' s' cs' ∈ preorder ((duplicateNodeInParent samplePage 1 100).1) →
      |s'.sum - 1| < 1/1000000) := by
  have hok : treeOk samplePage := by
    intro m hm
    simp [samplePage, sampleLeafA, sampleLeafB, preorder, preorderList] at hm
    rcases hm with rfl | rfl | rfl
    · rw [splitOk_split_iff]
      refine ⟨by norm_num, ?_, by norm_num, by norm_num⟩
      intro x hx
      rcases List.mem_cons.mp hx with rfl | hx'
      · norm_num
      · rcases List.mem_cons.mp hx' with rfl | hx''
        · norm_num
        · simp at hx''
    · rfl
    · rfl
  have h := sizes_sum_invariant 0 Direction.horizontal [1/2, 1/2]
    [sampleLeafA, sampleLeafB] 0 (1/10) samplePage 1 100
  exact ⟨by norm_num, by norm_num, hok,
    h.1 (by norm_num) (by norm_num), h.2.1 hok, h.2.2 hok⟩

/-- C7: every builder in the `PRESETS` catalog, run on any id supply,
returns a tree whose root is a SplitNode and which satisfies the
structural invariant (every split has at least one child, matching
sizes/children lengths, positive sizes summing to 1); and a second call
resuming the first call's id supply yields a tree sharing no identifier
with the first. -/
theorem PRESETS_spec :
    ∀ pr ∈ PRESETS, ∀ k : ℕ,
      (∃ i d s cs, (pr.2 k).1 = Node.split i d s cs) ∧
      treeOk (pr.2 k).1 ∧
      (∀ x ∈ nodeIds (pr.2 k).1, x ∉ nodeIds ((pr.2 ((pr.2 k).2)).1)) := by
  intro pr hpr k
  simp only [PRESETS, List.mem_cons, List.mem_singleton, List.not_mem_nil,
    or_false] at hpr
  rcases hpr with rfl | rfl | rfl | rfl | rfl | rfl | rfl | rfl | rfl
  · refine ⟨⟨_, _, _, _, rfl⟩, ?_, ?_⟩
    · intro m hm
      simp [layoutTwoColumns, DEFAULT_LEAF, uid, preorder, preorderList] at hm
      rcases hm with rfl | rfl | rfl
      · norm_num [splitOk]
      · rfl
      · rfl
    · intro x hx hy
      simp [layoutTwoColumns, DEFAULT_LEAF, uid, nodeIds, preorder,
        preorderList, Node.nodeId] at hx hy
      omega
  · refine ⟨⟨_, _, _, _, rfl⟩, ?_, ?_⟩
    · intro m hm
      simp [layoutThreeColumns, DEFAULT_LEAF, uid, preorder, preorderList] at hm
      rcases hm with rfl | rfl | rfl | rfl
      · norm_num [splitOk]
      · rfl
      · rfl
      · rfl
    · intro x hx hy
      simp [layoutThreeColumns, DEFAULT_LEAF, uid, nodeIds, preorder,
        preorderList, Node.nodeId] at hx hy
      omega
  · refine ⟨⟨_, _, _, _, rfl⟩, ?_, ?_⟩
    · intro m hm
      simp [layoutTwoByTwo, DEFAULT_LEAF, uid, preorder, preorderList] at hm
      rcases hm with rfl | rfl | rfl | rfl | rfl | rfl | rfl
      · norm_num [splitOk]
      · norm_num [splitOk]
      · rfl
      · rfl
      · norm_num [splitOk]
      · rfl
      · rfl
    · intro x hx hy
      simp [layoutTwoByTwo, DEFAULT_LEAF, uid, nodeIds, preorder,
        preorderList, Node.nodeId] at hx hy
      omega
  · refine ⟨⟨_, _, _, _, rfl⟩, ?_, ?_⟩
    · intro m hm
      simp [layoutMagazine, DEFAULT_LEAF, uid, preorder, preorderList] at hm
      rcases hm with rfl | rfl | rfl | rfl | rfl
      · norm_num [splitOk]
      · rfl
      · norm_num [splitOk]
      · rfl
      · rfl
    · intro x hx hy
      simp [layoutMagazine, DEFAULT_LEAF, uid, nodeIds, preorder,
        preorderList, Node.nodeId] at hx hy
      omega
  · refine ⟨⟨_, _, _, _, rfl⟩, ?_, ?_⟩
    · intro m hm
      simp [layoutHeaderColumns, DEFAULT_LEAF, uid, preorder, preorderList] at hm
      rcases hm with rfl | rfl | rfl | rfl | rfl
      · norm_num [splitOk]
      · rfl
      · norm_num [splitOk]
      · rfl
      · rfl
    · intro x hx hy
      simp [layoutHeaderColumns, DEFAULT_LEAF, uid, nodeIds, preorder,
        preorderList, Node.nodeId] at hx hy
      omega
  · refine ⟨⟨_, _, _, _, rfl⟩, ?_, ?_⟩
    · intro m hm
      simp [layoutFullBleed, DEFAULT_LEAF, uid, preorder, preorderList] at hm
      rcases hm with rfl | rfl
      · norm_num [splitOk]
      · rfl
    · intro x hx hy
      simp [layoutFullBleed, DEFAULT_LEAF, uid, nodeIds, preorder,
        preorderList, Node.nodeId] at hx hy
      omega
  · refine ⟨⟨_, _, _, _, rfl⟩, ?_, ?_⟩
    · intro m hm
      simp [layoutComic6Panel, DEFAULT_LEAF, uid, preorder, preorderList] at hm
      rcases hm with rfl | rfl | rfl | rfl | rfl | rfl | rfl | rfl | rfl | rfl
      · norm_num [splitOk]
      · norm_num [splitOk]
      · rfl
      · rfl
      · norm_num [splitOk]
      · rfl
      · rfl
      · norm_num [splitOk]
      · rfl
      · rfl
    · intro x hx hy
      simp [layoutComic6Panel, DEFAULT_LEAF, uid, nodeIds, preorder,
        preorderList, Node.nodeId] at hx hy
      omega
  · refine ⟨⟨_, _, _, _, rfl⟩, ?_, ?_⟩
    · intro m hm
      simp [layoutComicSplash, DEFAULT_LEAF, uid, preorder, preorderList] at hm
      rcases hm with rfl | rfl | rfl | rfl | rfl | rfl
      · norm_num [splitOk]
      · rfl
      · norm_num [splitOk]
      · rfl
      · rfl
      · rfl
    · intro x hx hy
      simp [layoutComicSplash, DEFAULT_LEAF, uid, nodeIds, preorder,
        preorderList, Node.nodeId] at hx hy
      omega
  · refine ⟨⟨_, _, _, _, rfl⟩, ?_, ?_⟩
    · intro m hm
      simp [layoutPyramid, DEFAULT_LEAF, uid, preorder, preorderList] at hm
      rcases hm with rfl | rfl | rfl | rfl | rfl | rfl
      · norm_num [splitOk]
      · rfl
      · norm_num [splitOk]
      · rfl
      · rfl
      · rfl
    · intro x hx hy
      simp [layoutPyramid, DEFAULT_LEAF, uid, nodeIds, preorder,
        preorderList, Node.nodeId] at hx hy
      omega

/-- Closed instance of `PRESETS_spec` for the two-column preset started at
supply 0. -/
theorem PRESETS_spec_witness :
    (("Two Col", layoutTwoColumns) ∈ PRESETS) ∧
    ((∃ i d s cs, (layoutTwoColumns 0).1 = Node.split i d s cs) ∧
      treeOk (layoutTwoColumns 0).1 ∧
      (∀ x ∈ nodeIds (layoutTwoColumns 0).1,
        x ∉ nodeIds ((layoutTwoColumns ((layoutTwoColumns 0).2)).1))) := by
  have hmem : ("Two Col", layoutTwoColumns) ∈ PRESETS :=
    List.mem_cons_self _ _
  exact ⟨hmem, PRESETS_spec ("Two Col", layoutTwoColumns) hmem 0⟩

end Storybook
